import Mathlib

/-!
Shallow embedding of the dei-website data-access core: the Supabase-backed
Event Repository (`src/lib/supabase.ts`) and the Medium feed utilities
(`src/lib/medium.ts`).  JavaScript strings are embedded as `String` (for the
event records) and `List Char` (for the character-level feed utilities);
JavaScript `undefined`/`null` record fields are embedded as `Option`;
JavaScript truthiness of strings (`''` is falsy) is embedded by `jsOrStr`.
The remote Supabase round trip of each operation is embedded as an explicit
outcome value (`Remote`): the query throws, reports an error, or succeeds
with a possibly-null payload.
-/

namespace Dei

/-- Embeds the JavaScript idiom `v || d` for a possibly-absent string `v`:
`undefined`, `null` and the empty string are all falsy. -/
def jsOrStr (v : Option String) (d : String) : String :=
  match v with
  | none => d
  | some s => if s = "" then d else s

/-- Embeds the JavaScript idiom `v || d` for a possibly-absent number:
`0` is falsy, so an explicit `0` and an absent field both yield `d`. -/
def jsOrInt (v : Option Int) (d : Int) : Int :=
  match v with
  | none => d
  | some n => if n = 0 then d else n

/-- Embeds a JavaScript `Date` value: either constructed from a (possibly
absent) string argument, or the k-th `new Date()` call at module load. -/
inductive JsDate where
  | fromString (s : Option String)
  | atLoad (k : Nat)
deriving DecidableEq, Repr

/-- Embeds the `Event` interface of `src/types/index.ts`.  Fields that the
mapper passes through uncoerced may hold `undefined` at runtime and are
embedded as `Option`; fields with a `||` default are always populated. -/
structure Event where
  id : Option String
  title : Option String
  slug : Option String
  description : Option String
  excerpt : String
  startDate : JsDate
  endDate : Option JsDate
  timezone : String
  locationType : String
  venue : Option String
  address : Option String
  city : Option String
  virtualLink : Option String
  coverImage : String
  category : Option String
  tags : List String
  status : String
  registrationUrl : Option String
  maxAttendees : Option Int
  registeredCount : Int
  createdAt : JsDate
  updatedAt : JsDate
  publishedAt : JsDate
  isFeatured : Bool
deriving DecidableEq, Repr

/-- Embeds one raw Supabase row (`Record<string, unknown>`): every
underscore-named column may be absent (`none`). -/
structure DbEvent where
  id : Option String := none
  title : Option String := none
  slug : Option String := none
  description : Option String := none
  excerpt : Option String := none
  start_date : Option String := none
  end_date : Option String := none
  timezone : Option String := none
  location_type : Option String := none
  venue : Option String := none
  address : Option String := none
  city : Option String := none
  virtual_link : Option String := none
  cover_image : Option String := none
  category : Option String := none
  tags : Option (List String) := none
  status : Option String := none
  registration_url : Option String := none
  max_attendees : Option Int := none
  registered_count : Option Int := none
  created_at : Option String := none
  updated_at : Option String := none
  published_at : Option String := none
  is_featured : Option Bool := none
deriving DecidableEq, Repr

/-- Embeds `mapDbEventToEvent` of `src/lib/supabase.ts`: field-by-field
translation of a snake_case row into the camelCase `Event` shape, with the
source's `||` defaults and unvalidated passthrough of the other fields. -/
def mapDbEventToEvent (dbEvent : DbEvent) : Event :=
  { id := dbEvent.id
    title := dbEvent.title
    slug := dbEvent.slug
    description := dbEvent.description
    excerpt := jsOrStr dbEvent.excerpt ""
    startDate := JsDate.fromString dbEvent.start_date
    endDate :=
      match dbEvent.end_date with
      | none => none
      | some s => if s = "" then none else some (JsDate.fromString (some s))
    timezone := jsOrStr dbEvent.timezone "Asia/Jakarta"
    locationType := jsOrStr dbEvent.location_type "virtual"
    venue := dbEvent.venue
    address := dbEvent.address
    city := dbEvent.city
    virtualLink := dbEvent.virtual_link
    coverImage := jsOrStr dbEvent.cover_image ""
    category := dbEvent.category
    tags := dbEvent.tags.getD []
    status := jsOrStr dbEvent.status "upcoming"
    registrationUrl := dbEvent.registration_url
    maxAttendees := dbEvent.max_attendees
    registeredCount := jsOrInt dbEvent.registered_count 0
    createdAt := JsDate.fromString dbEvent.created_at
    updatedAt := JsDate.fromString dbEvent.updated_at
    publishedAt := JsDate.fromString dbEvent.published_at
    isFeatured := dbEvent.is_featured.getD false }

/-- Embeds the hardcoded `sampleEvents` constant of `src/lib/supabase.ts`.
The six `new Date()` calls at module load are embedded as `JsDate.atLoad 0`
through `JsDate.atLoad 5` in source order. -/
def sampleEvents : List Event :=
  [ { id := some "1"
      title := some "DEI Workshop: Introduction to Data Engineering"
      slug := some "intro-to-data-engineering"
      description := some "Join us for an introductory workshop on data engineering fundamentals. Learn about ETL pipelines, data warehousing, and modern data stack."
      excerpt := "An introductory workshop covering data engineering fundamentals, ETL pipelines, and modern data stack."
      startDate := JsDate.fromString (some "2026-03-15T09:00:00")
      endDate := some (JsDate.fromString (some "2026-03-15T12:00:00"))
      timezone := "Asia/Jakarta"
      locationType := "virtual"
      venue := none
      address := none
      city := none
      virtualLink := some "https://zoom.us/j/example"
      coverImage := ""
      category := some "Workshop"
      tags := ["beginner", "data-engineering", "etl"]
      status := "upcoming"
      registrationUrl := some "https://forms.google.com/example"
      maxAttendees := some 100
      registeredCount := 45
      createdAt := JsDate.atLoad 0
      updatedAt := JsDate.atLoad 1
      publishedAt := JsDate.atLoad 2
      isFeatured := true }
  , { id := some "2"
      title := some "Building Data Pipelines with Apache Airflow"
      slug := some "data-pipelines-airflow"
      description := some "Hands-on workshop on building and scheduling data pipelines using Apache Airflow."
      excerpt := "Learn to build and schedule data pipelines using Apache Airflow in this hands-on workshop."
      startDate := JsDate.fromString (some "2026-04-20T13:00:00")
      endDate := some (JsDate.fromString (some "2026-04-20T16:00:00"))
      timezone := "Asia/Jakarta"
      locationType := "hybrid"
      venue := some "Tech Hub Jakarta"
      address := none
      city := some "Jakarta"
      virtualLink := none
      coverImage := ""
      category := some "Workshop"
      tags := ["airflow", "pipelines", "automation"]
      status := "upcoming"
      registrationUrl := some "https://forms.google.com/example2"
      maxAttendees := some 50
      registeredCount := 23
      createdAt := JsDate.atLoad 3
      updatedAt := JsDate.atLoad 4
      publishedAt := JsDate.atLoad 5
      isFeatured := true } ]

/-- Embeds the two environment credentials (`PUBLIC_SUPABASE_URL`,
`PUBLIC_SUPABASE_ANON_KEY`); an absent variable is the empty string after
the source's `|| ''`. -/
structure SupabaseEnv where
  supabaseUrl : String
  supabaseKey : String
deriving DecidableEq, Repr

/-- Embeds `!!supabase`: the client is created iff both credential strings
are truthy, i.e. nonempty. -/
def isSupabaseConfigured (env : SupabaseEnv) : Bool :=
  (env.supabaseUrl != "") && (env.supabaseKey != "")

/-- Embeds the outcome of one awaited Supabase round trip: the call threw,
the client reported a non-null `error`, or it succeeded with payload `data`
(which the source guards against being null). -/
inductive Remote (α : Type) where
  | throws
  | errs
  | ok (data : Option α)
deriving DecidableEq

/-- Embeds `getEvents` of `src/lib/supabase.ts`. -/
def getEvents (env : SupabaseEnv) (remote : Remote (List DbEvent)) : List Event :=
  if isSupabaseConfigured env = false then sampleEvents
  else
    match remote with
    | Remote.throws => sampleEvents
    | Remote.errs => sampleEvents
    | Remote.ok none => sampleEvents
    | Remote.ok (some data) => data.map mapDbEventToEvent

/-- Embeds `getEventBySlug` of `src/lib/supabase.ts`; the `.single()` query
yields at most one row. -/
def getEventBySlug (env : SupabaseEnv) (remote : Remote DbEvent) (slug : String) :
    Option Event :=
  if isSupabaseConfigured env = false then
    sampleEvents.find? (fun e => e.slug == some slug)
  else
    match remote with
    | Remote.throws => sampleEvents.find? (fun e => e.slug == some slug)
    | Remote.errs => sampleEvents.find? (fun e => e.slug == some slug)
    | Remote.ok none => none
    | Remote.ok (some row) => some (mapDbEventToEvent row)

/-- Embeds `getFeaturedEvents` of `src/lib/supabase.ts`: the source tests
`data?.length`, so a null or empty payload falls back to the filtered
sample set. -/
def getFeaturedEvents (env : SupabaseEnv) (remote : Remote (List DbEvent)) : List Event :=
  if isSupabaseConfigured env = false then sampleEvents.filter (fun e => e.isFeatured)
  else
    match remote with
    | Remote.throws => sampleEvents.filter (fun e => e.isFeatured)
    | Remote.errs => sampleEvents.filter (fun e => e.isFeatured)
    | Remote.ok none => sampleEvents.filter (fun e => e.isFeatured)
    | Remote.ok (some data) =>
        if data.length = 0 then sampleEvents.filter (fun e => e.isFeatured)
        else data.map mapDbEventToEvent

/-! ## Article Feed Adapter (`src/lib/medium.ts`)

The string utilities operate on `List Char`, embedding JavaScript strings
character by character.  The two global regex replaces (`/<[^>]*>/g → ' '`
and `/\s+/g → ' '`) and `split(/\s+/)` are embedded as structural one-pass
scans equivalent to the left-to-right, non-overlapping global matching of
the source regexes. -/

/-- Embeds the JavaScript `\s` character class (ECMAScript WhiteSpace and
LineTerminator code points). -/
def isWs (c : Char) : Bool :=
  c = ' ' || c = '\t' || c = '\n' || c = '\x0b' || c = '\x0c' || c = '\r' ||
  c = '\u00A0' || c = '\u1680' || (0x2000 ≤ c.toNat && c.toNat ≤ 0x200A) ||
  c = '\u2028' || c = '\u2029' || c = '\u202F' || c = '\u205F' ||
  c = '\u3000' || c = '\uFEFF'

/-- Maps every whitespace character to a plain space; a proof device used to
relate `collapseWs` to a sublist of its input. -/
def wsToSpace (c : Char) : Char := if isWs c then ' ' else c

/-- Embeds the global replace `content.replace(/<[^>]*>/g, ' ')` as a single
left-to-right scan.  In mode `none` the scanner copies characters; at a `<`
it enters mode `some buf`, buffering the pending characters (in reverse)
until the first `>` closes the match (emitting one space), or until the end
of the input, where the unmatched buffer is restored verbatim — exactly the
behavior of the regex, whose match always runs from a `<` to the first
following `>`. -/
def stripTagsAux : Option (List Char) → List Char → List Char
  | none, [] => []
  | some buf, [] => buf.reverse
  | none, c :: rest =>
      if c = '<' then stripTagsAux (some [c]) rest
      else c :: stripTagsAux none rest
  | some buf, c :: rest =>
      if c = '>' then ' ' :: stripTagsAux none rest
      else stripTagsAux (some (c :: buf)) rest

/-- Embeds `content.replace(/<[^>]*>/g, ' ')`. -/
def stripTags (content : List Char) : List Char := stripTagsAux none content

/-- Embeds the global replace `/\s+/g → ' '` as a one-pass scan; the flag
records whether the scanner is inside a whitespace run whose single
replacement space has already been emitted. -/
def collapseWsAux : Bool → List Char → List Char
  | _, [] => []
  | inRun, c :: rest =>
      if isWs c then
        if inRun then collapseWsAux true rest
        else ' ' :: collapseWsAux true rest
      else c :: collapseWsAux false rest

/-- Embeds `plainText.replace(/\s+/g, ' ')`. -/
def collapseWs (l : List Char) : List Char := collapseWsAux false l

/-- Removes the trailing whitespace run, the tail half of `String.trim`. -/
def trimEnd : List Char → List Char
  | [] => []
  | c :: rest =>
      match trimEnd rest with
      | [] => if isWs c then [] else [c]
      | r => c :: r

/-- Embeds JavaScript `String.prototype.trim` (strips `\s` at both ends). -/
def trimWs (l : List Char) : List Char := trimEnd (l.dropWhile isWs)

/-- Embeds the `'...'` literal appended on truncation. -/
def ellipsis : List Char := ['.', '.', '.']

/-- Embeds the `cleanText` intermediate of `extractExcerpt`: tags stripped,
whitespace collapsed, ends trimmed. -/
def cleanedText (content : List Char) : List Char :=
  trimWs (collapseWs (stripTags content))

/-- Embeds `extractExcerpt` of `src/lib/medium.ts`. -/
def extractExcerpt (content : List Char) (maxLength : Nat) : List Char :=
  if (cleanedText content).length ≤ maxLength then cleanedText content
  else trimWs ((cleanedText content).take maxLength) ++ ellipsis

/-- Embeds JavaScript `s.split(/\s+/)` as a one-pass scan: `acc` is the
current segment (reversed), and the flag records whether the scanner is
inside a separator run.  A leading or trailing run contributes an empty
segment, and the empty string yields one empty segment, as in ECMAScript. -/
def splitWsGo : Bool → List Char → List Char → List (List Char)
  | _, acc, [] => [acc.reverse]
  | inRun, acc, c :: rest =>
      if isWs c then
        if inRun then splitWsGo true acc rest
        else acc.reverse :: splitWsGo true [] rest
      else splitWsGo false (c :: acc) rest

/-- Embeds `s.split(/\s+/)`. -/
def splitWs (l : List Char) : List (List Char) := splitWsGo false [] l

/-- Embeds the `wordsPerMinute` constant of `calculateReadingTime`. -/
def wordsPerMinute : Nat := 200

/-- Embeds `calculateReadingTime` of `src/lib/medium.ts`: strip tags, trim,
split on whitespace, count the segments, and take `Math.ceil` of the count
divided by 200. -/
def calculateReadingTime (content : List Char) : Nat :=
  Nat.ceil (((splitWs (trimWs (stripTags content))).length : ℚ) / (wordsPerMinute : ℚ))

/-- Embeds one raw item of the parsed RSS feed; every field the mapper reads
may be absent. -/
structure FeedItem where
  title : Option String := none
  link : Option String := none
  pubDate : Option String := none
  dcCreator : Option String := none
  creator : Option String := none
  categories : Option (List String) := none
  contentEncoded : Option String := none
  content : Option String := none
deriving DecidableEq, Repr

/-- Embeds the normalized `MediumArticle` shape produced by the mapper. -/
structure MediumArticle where
  title : String
  link : String
  pubDate : String
  dcCreator : String
  categories : List String
  contentEncoded : String
deriving DecidableEq, Repr

/-- Embeds the outcome of `parser.parseURL`: a thrown fetch/parse failure,
or a parsed feed with its item list. -/
inductive FetchResult where
  | throws
  | ok (items : List FeedItem)
deriving DecidableEq

/-- Embeds the per-item mapping inside `fetchMediumArticles`, including the
`'DEI Team'` creator fallback and the empty-categories fallback. -/
def mapFeedItem (item : FeedItem) : MediumArticle :=
  { title := jsOrStr item.title ""
    link := jsOrStr item.link ""
    pubDate := jsOrStr item.pubDate ""
    dcCreator := jsOrStr item.dcCreator (jsOrStr item.creator "DEI Team")
    categories := item.categories.getD []
    contentEncoded := jsOrStr item.contentEncoded (jsOrStr item.content "") }

/-- Embeds `fetchMediumArticles` of `src/lib/medium.ts`. -/
def fetchMediumArticles (res : FetchResult) (limit : Nat) : List MediumArticle :=
  match res with
  | FetchResult.throws => []
  | FetchResult.ok items => (items.take limit).map mapFeedItem

/-! ## Specification predicates

Vocabulary used to state the claims about the string pipeline; each is a
decidable property of the embedded strings, not part of the source. -/

/-- Whether the first character exists and is whitespace. -/
def hdWs : List Char → Bool
  | [] => false
  | c :: _ => isWs c

/-- Whether the last character exists and is whitespace. -/
def endWs (l : List Char) : Bool :=
  match l.getLast? with
  | some c => isWs c
  | none => false

/-- No two adjacent whitespace characters (whitespace runs are collapsed). -/
def noWsRun : List Char → Bool
  | [] => true
  | [_] => true
  | a :: b :: rest => (!(isWs a && isWs b)) && noWsRun (b :: rest)

/-- No tag-shaped substring: no `<` occurs anywhere before a `>`, which is
equivalent to containing no match of `/<[^>]*>/`. -/
def tagFree (l : List Char) : Prop := ¬ List.Sublist ['<', '>'] l

/-- Every whitespace character in the string is a plain space. -/
def allWsSpace (l : List Char) : Prop := ∀ c ∈ l, isWs c = true → c = ' '

instance (l : List Char) : Decidable (tagFree l) := by
  unfold tagFree
  exact instDecidableNot

instance (l : List Char) : Decidable (allWsSpace l) := by
  unfold allWsSpace
  exact List.decidableBAll _ l

/-- Builds plain-text content from a first word followed by
(separator, word) blocks: `joined w0 [(s1, w1), (s2, w2)] = w0 ++ s1 ++ w1
++ s2 ++ w2`; with the side conditions of the claim this is exactly a text
of `1 + rest.length` whitespace-separated words. -/
def joined (w0 : List Char) : List (List Char × List Char) → List Char
  | [] => w0
  | (s, w) :: rest => w0 ++ s ++ joined w rest

/-! ## Event Repository theorems -/

/-- C1: for every process state in which the repository is not configured, or
in which the remote query reports an error or throws, `getEvents` returns
exactly the hardcoded sample set: length 2, ids `'1'` and `'2'`, in the
original order, unmodified. -/
theorem getEvents_fallback_spec (env : SupabaseEnv) (remote : Remote (List DbEvent))
    (h : isSupabaseConfigured env = false ∨ remote = Remote.throws ∨ remote = Remote.errs) :
    getEvents env remote = sampleEvents ∧
    (getEvents env remote).length = 2 ∧
    (getEvents env remote).map (fun e => e.id) = [some "1", some "2"] := by
  have hmain : getEvents env remote = sampleEvents := by
    unfold getEvents
    rcases h with h | h | h
    · rw [h]; simp
    · subst h; cases hcfg : isSupabaseConfigured env <;> simp
    · subst h; cases hcfg : isSupabaseConfigured env <;> simp
  refine ⟨hmain, ?_, ?_⟩ <;> rw [hmain] <;> rfl

/-- C1 witness: the unconfigured state at a throwing remote. -/
theorem getEvents_fallback_spec_witness :
    getEvents ⟨"", ""⟩ Remote.throws = sampleEvents ∧
    (getEvents ⟨"", ""⟩ Remote.throws).length = 2 ∧
    (getEvents ⟨"", ""⟩ Remote.throws).map (fun e => e.id) = [some "1", some "2"] :=
  getEvents_fallback_spec ⟨"", ""⟩ Remote.throws (Or.inl (by rfl))

/-- C2 counterexample: with the repository configured and the remote query
succeeding with zero rows, `getEvents` returns the empty sequence, not the
sample set — the source tests `data ?`, and an empty array is truthy. -/
theorem getEvents_emptyRows_cex :
    getEvents ⟨"https://example.supabase.co", "anon-key"⟩ (Remote.ok (some [])) = [] ∧
    getEvents ⟨"https://example.supabase.co", "anon-key"⟩ (Remote.ok (some [])) ≠ sampleEvents := by
  refine ⟨rfl, fun h => ?_⟩
  have h0 : ([] : List Event) = sampleEvents := h
  have h1 : (0 : Nat) = 2 := congrArg List.length h0
  exact absurd h1 (by decide)

/-- C2 amended: when configured, a successful query maps whatever row list
the payload holds — an empty row list yields the empty sequence — and the
sample set is returned on success only when the payload is null. -/
theorem getEvents_emptyRows_amended (env : SupabaseEnv)
    (hc : isSupabaseConfigured env = true) :
    getEvents env (Remote.ok (some [])) = [] ∧
    getEvents env (Remote.ok none) = sampleEvents := by
  unfold getEvents
  rw [hc]
  simp

/-- C2 amended witness: a concrete configured environment. -/
theorem getEvents_emptyRows_amended_witness :
    getEvents ⟨"https://example.supabase.co", "anon-key"⟩ (Remote.ok (some [])) = [] ∧
    getEvents ⟨"https://example.supabase.co", "anon-key"⟩ (Remote.ok none) = sampleEvents :=
  getEvents_emptyRows_amended ⟨"https://example.supabase.co", "anon-key"⟩ (by rfl)

/-- C3: all three repository operations are total functions of the process
state and the remote outcome — in this embedding they return plain values,
so no failure can propagate — and on each error kind (not configured,
client-reported error, thrown transport exception) each returns its
applicable fallback: the sample set, the sample set searched by slug, and
the featured-filtered sample set respectively. -/
theorem repo_total_fallback_spec (env : SupabaseEnv) (slug : String)
    (rE rF : Remote (List DbEvent)) (rS : Remote DbEvent)
    (hE : isSupabaseConfigured env = false ∨ rE = Remote.throws ∨ rE = Remote.errs)
    (hS : isSupabaseConfigured env = false ∨ rS = Remote.throws ∨ rS = Remote.errs)
    (hF : isSupabaseConfigured env = false ∨ rF = Remote.throws ∨ rF = Remote.errs) :
    getEvents env rE = sampleEvents ∧
    getEventBySlug env rS slug = sampleEvents.find? (fun e => e.slug == some slug) ∧
    getFeaturedEvents env rF = sampleEvents.filter (fun e => e.isFeatured) := by
  refine ⟨?_, ?_, ?_⟩
  · unfold getEvents
    rcases hE with h | h | h
    · rw [h]; simp
    · subst h; cases hcfg : isSupabaseConfigured env <;> simp
    · subst h; cases hcfg : isSupabaseConfigured env <;> simp
  · unfold getEventBySlug
    rcases hS with h | h | h
    · rw [h]; simp
    · subst h; cases hcfg : isSupabaseConfigured env <;> simp
    · subst h; cases hcfg : isSupabaseConfigured env <;> simp
  · unfold getFeaturedEvents
    rcases hF with h | h | h
    · rw [h]; simp
    · subst h; cases hcfg : isSupabaseConfigured env <;> simp
    · subst h; cases hcfg : isSupabaseConfigured env <;> simp

/-- C3 witness: an unconfigured state with a throwing events remote, an
erroring slug remote and a throwing featured remote. -/
theorem repo_total_fallback_spec_witness :
    getEvents ⟨"", "k"⟩ Remote.throws = sampleEvents ∧
    getEventBySlug ⟨"", "k"⟩ Remote.errs "intro-to-data-engineering"
      = sampleEvents.find? (fun e => e.slug == some "intro-to-data-engineering") ∧
    getFeaturedEvents ⟨"", "k"⟩ Remote.throws = sampleEvents.filter (fun e => e.isFeatured) :=
  repo_total_fallback_spec ⟨"", "k"⟩ "intro-to-data-engineering" Remote.throws Remote.throws
    Remote.errs (Or.inl (by rfl)) (Or.inr (Or.inr rfl)) (Or.inr (Or.inl rfl))

/-- C4: under the issued query's contract — the source sends `.limit(3)`, so
a successful payload holds at most 3 rows — `getFeaturedEvents` always
returns at most 3 events; when not configured it returns exactly the
featured-filtered sample set, which is the whole sample set (both sample
events are featured), in original order. -/
theorem getFeaturedEvents_spec (env : SupabaseEnv) (remote : Remote (List DbEvent))
    (hlim : ∀ rows, remote = Remote.ok (some rows) → rows.length ≤ 3) :
    (getFeaturedEvents env remote).length ≤ 3 ∧
    (isSupabaseConfigured env = false →
      getFeaturedEvents env remote = sampleEvents.filter (fun e => e.isFeatured)) ∧
    sampleEvents.filter (fun e => e.isFeatured) = sampleEvents := by
  have hfb : (sampleEvents.filter (fun e => e.isFeatured)).length ≤ 3 := by decide
  refine ⟨?_, ?_, by rfl⟩
  · unfold getFeaturedEvents
    cases hcfg : isSupabaseConfigured env with
    | false => simpa using hfb
    | true =>
      cases remote with
      | throws => simpa using hfb
      | errs => simpa using hfb
      | ok data =>
        cases data with
        | none => simpa using hfb
        | some rows =>
          by_cases hz : rows.length = 0
          · simpa [hz] using hfb
          · simpa [hz] using hlim rows rfl
  · intro hcfg
    unfold getFeaturedEvents
    rw [hcfg]
    simp

/-- C4 witness: an unconfigured state with a throwing remote, whose outcome
vacuously satisfies the query contract. -/
theorem getFeaturedEvents_spec_witness :
    (getFeaturedEvents ⟨"", ""⟩ Remote.throws).length ≤ 3 ∧
    (isSupabaseConfigured ⟨"", ""⟩ = false →
      getFeaturedEvents ⟨"", ""⟩ Remote.throws = sampleEvents.filter (fun e => e.isFeatured)) ∧
    sampleEvents.filter (fun e => e.isFeatured) = sampleEvents :=
  getFeaturedEvents_spec ⟨"", ""⟩ Remote.throws (fun rows h => by cases h)

/-- C5 counterexample: a remote row whose `status` and `location_type` are
present but hold the empty string — present, and outside both enumerated
sets — is not passed through: the `||` defaults treat `''` as falsy and
substitute `'upcoming'` and `'virtual'`. -/
theorem mapDbEvent_passthrough_cex :
    ({ status := some "", location_type := some "" } : DbEvent).status = some "" ∧
    "" ∉ ["upcoming", "ongoing", "completed", "cancelled"] ∧
    "" ∉ ["physical", "virtual", "hybrid"] ∧
    (mapDbEventToEvent { status := some "", location_type := some "" }).status = "upcoming" ∧
    (mapDbEventToEvent { status := some "", location_type := some "" }).locationType = "virtual" ∧
    "upcoming" ≠ "" ∧ "virtual" ≠ "" := by
  refine ⟨rfl, by decide, by decide, rfl, rfl, by decide, by decide⟩

/-- C5 amended: the mapper validates nothing, but its passthrough of present
`status`/`location_type` values holds exactly for non-empty values
(including every non-empty out-of-enum value); the empty string is falsy in
the source's `||` default and is replaced by `'upcoming'` resp.
`'virtual'`. -/
theorem mapDbEvent_passthrough_amended (dbEvent : DbEvent) (s t : String)
    (hs : dbEvent.status = some s) (ht : dbEvent.location_type = some t) :
    (mapDbEventToEvent dbEvent).status = (if s = "" then "upcoming" else s) ∧
    (mapDbEventToEvent dbEvent).locationType = (if t = "" then "virtual" else t) := by
  constructor
  · show jsOrStr dbEvent.status "upcoming" = _
    rw [hs]; rfl
  · show jsOrStr dbEvent.location_type "virtual" = _
    rw [ht]; rfl

/-- C5 amended witness: a row with out-of-enum non-empty values is passed
through uncoerced. -/
theorem mapDbEvent_passthrough_amended_witness :
    (mapDbEventToEvent { status := some "postponed", location_type := some "metaverse" }).status
      = (if "postponed" = "" then "upcoming" else "postponed") ∧
    (mapDbEventToEvent
        { status := some "postponed", location_type := some "metaverse" }).locationType
      = (if "metaverse" = "" then "virtual" else "metaverse") :=
  mapDbEvent_passthrough_amended { status := some "postponed", location_type := some "metaverse" }
    "postponed" "metaverse" rfl rfl

/-! ## Tag-stripping lemmas -/

/-- In buffering mode with no `>` left in the input, the pending buffer is
restored verbatim: the regex never matches an unclosed `<`. -/
theorem stripAux_some_of_noGt : ∀ (l buf : List Char), '>' ∉ l →
    stripTagsAux (some buf) l = buf.reverse ++ l := by
  intro l
  induction l with
  | nil => intro buf _; simp [stripTagsAux]
  | cons c rest ih =>
    intro buf hmem
    have hc : ¬ c = '>' := fun h => hmem (by simp [h])
    have hrest : '>' ∉ rest := fun h => hmem (List.mem_cons_of_mem _ h)
    simp only [stripTagsAux, if_neg hc]
    rw [ih (c :: buf) hrest]
    simp

/-- A prefix free of `<` passes through the scanner unchanged. -/
theorem stripAux_append_of_noLt : ∀ (A t : List Char), '<' ∉ A →
    stripTagsAux none (A ++ t) = A ++ stripTagsAux none t := by
  intro A
  induction A with
  | nil => intro t _; simp
  | cons c rest ih =>
    intro t hmem
    have hc : ¬ c = '<' := fun h => hmem (by simp [h])
    have hrest : '<' ∉ rest := fun h => hmem (List.mem_cons_of_mem _ h)
    simp only [List.cons_append, stripTagsAux, if_neg hc, List.append_eq]
    rw [ih t hrest]

/-- A string with no `>` is a fixed point of tag stripping. -/
theorem stripAux_none_of_noGt : ∀ l : List Char, '>' ∉ l → stripTagsAux none l = l := by
  intro l
  induction l with
  | nil => intro _; rfl
  | cons c rest ih =>
    intro hmem
    have hrest : '>' ∉ rest := fun h => hmem (List.mem_cons_of_mem _ h)
    by_cases hc : c = '<'
    · simp only [stripTagsAux, if_pos hc]
      rw [stripAux_some_of_noGt rest [c] hrest]
      simp [hc]
    · simp only [stripTagsAux, if_neg hc]
      rw [ih hrest]

/-- Structure of the scanner output: a `<`-free prefix followed by a
`>`-free tail, in both scanner modes. -/
theorem stripAux_split : ∀ l : List Char,
    (∃ A B, stripTagsAux none l = A ++ B ∧ '<' ∉ A ∧ '>' ∉ B) ∧
    (∀ buf, '>' ∉ buf →
      ∃ A B, stripTagsAux (some buf) l = A ++ B ∧ '<' ∉ A ∧ '>' ∉ B) := by
  intro l
  induction l with
  | nil =>
    refine ⟨⟨[], [], rfl, by simp, by simp⟩,
      fun buf hbuf => ⟨[], buf.reverse, by simp [stripTagsAux], by simp, ?_⟩⟩
    simpa using fun h => hbuf h
  | cons c rest ih =>
    constructor
    · by_cases hc : c = '<'
      · have := ih.2 [c] (by simp [hc])
        simpa [stripTagsAux, if_pos hc] using this
      · obtain ⟨A, B, hAB, hA, hB⟩ := ih.1
        refine ⟨c :: A, B, by simp [stripTagsAux, if_neg hc, hAB], ?_, hB⟩
        intro hm
        rcases List.mem_cons.mp hm with h | h
        · exact hc h.symm
        · exact hA h
    · intro buf hbuf
      by_cases hc : c = '>'
      · obtain ⟨A, B, hAB, hA, hB⟩ := ih.1
        refine ⟨' ' :: A, B, by simp [stripTagsAux, if_pos hc, hAB], by simp [hA], hB⟩
      · have hmem : '>' ∉ (c :: buf : List Char) := by
          intro hm
          rcases List.mem_cons.mp hm with h | h
          · exact hc h.symm
          · exact hbuf h
        have heq : stripTagsAux (some buf) (c :: rest) = stripTagsAux (some (c :: buf)) rest := by
          simp [stripTagsAux, if_neg hc]
        rw [heq]
        exact ih.2 (c :: buf) hmem

/-- A string made of a `<`-free part followed by a `>`-free part contains no
tag-shaped substring. -/
theorem tagFree_split {A B : List Char} (hA : '<' ∉ A) (hB : '>' ∉ B) : tagFree (A ++ B) := by
  intro hsub
  obtain ⟨l₁, l₂, heq, h₁, h₂⟩ := List.sublist_append_iff.mp hsub
  cases l₁ with
  | nil =>
    have hl2 : l₂ = ['<', '>'] := by simpa using heq.symm
    have : '>' ∈ l₂ := by simp [hl2]
    exact hB (h₂.subset this)
  | cons a l₁' =>
    have ha : a = '<' := by
      have := congrArg (fun t => t.head?) heq
      simpa using this.symm
    have : '<' ∈ (a :: l₁' : List Char) := by simp [ha]
    exact hA (h₁.subset this)

/-- Conversely, every tag-free string splits into a `<`-free prefix and a
`>`-free tail. -/
theorem TF_of_tagFree : ∀ l : List Char, tagFree l →
    ∃ A B, l = A ++ B ∧ '<' ∉ A ∧ '>' ∉ B := by
  intro l
  induction l with
  | nil => intro _; exact ⟨[], [], rfl, by simp, by simp⟩
  | cons c rest ih =>
    intro h
    have hrest : tagFree rest := fun hs => h (hs.trans (List.sublist_cons_self c rest))
    by_cases hc : c = '<'
    · have hgt : '>' ∉ rest := by
        intro hmem
        exact h (by
          subst hc
          exact List.Sublist.cons₂ '<' (List.singleton_sublist.mpr hmem))
      exact ⟨[], c :: rest, rfl, by simp, by simp [hc, hgt]⟩
    · obtain ⟨A, B, hAB, hA, hB⟩ := ih hrest
      refine ⟨c :: A, B, by simp [hAB], ?_, hB⟩
      intro hm
      rcases List.mem_cons.mp hm with h | h
      · exact hc h.symm
      · exact hA h

/-- Tag-freedom is inherited by sublists. -/
theorem tagFree_of_sublist {l' l : List Char} (hsub : List.Sublist l' l) (h : tagFree l) :
    tagFree l' := fun hs => h (hs.trans hsub)

/-- The scanner output is always tag-free: every tag is replaced. -/
theorem tagFree_stripTags (l : List Char) : tagFree (stripTags l) := by
  obtain ⟨A, B, hAB, hA, hB⟩ := (stripAux_split l).1
  rw [stripTags, hAB]
  exact tagFree_split hA hB

/-- A tag-free string is a fixed point of tag stripping. -/
theorem stripTags_of_tagFree {l : List Char} (h : tagFree l) : stripTags l = l := by
  obtain ⟨A, B, rfl, hA, hB⟩ := TF_of_tagFree l h
  rw [stripTags, stripAux_append_of_noLt A B hA, stripAux_none_of_noGt B hB]

/-! ## Whitespace-collapsing and trimming lemmas -/

/-- Whitespace-mapping never produces a character other than a space out of
thin air. -/
theorem wsToSpace_eq_of_ne_space {c d : Char} (h : wsToSpace c = d) (hd : d ≠ ' ') : c = d := by
  unfold wsToSpace at h
  by_cases hw : isWs c = true
  · rw [if_pos hw] at h; exact absurd h.symm hd
  · rwa [if_neg hw] at h

/-- Mapping whitespace to spaces preserves absence of a non-space
character. -/
theorem not_mem_map_wsToSpace {A : List Char} {d : Char} (hd : d ≠ ' ') (hA : d ∉ A) :
    d ∉ A.map wsToSpace := by
  intro hm
  obtain ⟨a, ha, hfa⟩ := List.mem_map.mp hm
  exact hA ((wsToSpace_eq_of_ne_space hfa hd) ▸ ha)

/-- Mapping whitespace to spaces preserves tag-freedom. -/
theorem tagFree_map_wsToSpace {l : List Char} (h : tagFree l) : tagFree (l.map wsToSpace) := by
  obtain ⟨A, B, rfl, hA, hB⟩ := TF_of_tagFree l h
  rw [List.map_append]
  exact tagFree_split (not_mem_map_wsToSpace (by decide) hA) (not_mem_map_wsToSpace (by decide) hB)

/-- The collapse scanner only drops characters or rewrites whitespace to
spaces: its output is a sublist of the whitespace-normalized input. -/
theorem collapseAux_sublist : ∀ (l : List Char) (sk : Bool),
    List.Sublist (collapseWsAux sk l) (l.map wsToSpace) := by
  intro l
  induction l with
  | nil => intro sk; simp [collapseWsAux]
  | cons c rest ih =>
    intro sk
    by_cases hw : isWs c = true
    · cases sk with
      | true =>
        simpa [collapseWsAux, hw] using (ih true).trans (List.sublist_cons_self (wsToSpace c) _)
      | false =>
        have hsp : wsToSpace c = ' ' := by simp [wsToSpace, hw]
        simpa [collapseWsAux, hw, hsp] using List.Sublist.cons₂ ' ' (ih true)
    · have hsp : wsToSpace c = c := by simp [wsToSpace, hw]
      simpa [collapseWsAux, hw, hsp] using List.Sublist.cons₂ c (ih false)

/-- In skipping mode the collapse scanner never emits a leading space. -/
theorem hdWs_collapseAux_true : ∀ l : List Char, hdWs (collapseWsAux true l) = false := by
  intro l
  induction l with
  | nil => rfl
  | cons c rest ih =>
    by_cases hw : isWs c = true
    · simpa [collapseWsAux, hw] using ih
    · simp [collapseWsAux, hw, hdWs]

/-- Prepending keeps runs collapsed when the pair at the seam is safe. -/
theorem noWsRun_cons {c : Char} {xs : List Char}
    (h : isWs c = false ∨ hdWs xs = false) (hxs : noWsRun xs = true) :
    noWsRun (c :: xs) = true := by
  cases xs with
  | nil => rfl
  | cons b r =>
    have hb : (isWs c && isWs b) = false := by
      rcases h with h | h
      · simp [h]
      · have hbf : isWs b = false := by simpa [hdWs] using h
        simp [hbf]
    simp [noWsRun, hb, hxs]

/-- Dropping the head keeps runs collapsed. -/
theorem noWsRun_tail {c : Char} {l : List Char} (h : noWsRun (c :: l) = true) :
    noWsRun l = true := by
  cases l with
  | nil => rfl
  | cons b r =>
    simp only [noWsRun, Bool.and_eq_true] at h
    exact h.2

/-- In a collapsed string a whitespace head is followed by non-whitespace. -/
theorem noWsRun_hd {c : Char} {l : List Char} (h : noWsRun (c :: l) = true)
    (hc : isWs c = true) : hdWs l = false := by
  cases l with
  | nil => rfl
  | cons b r =>
    simp only [noWsRun, Bool.and_eq_true] at h
    have := h.1
    simp [hc] at this
    simpa [hdWs] using this

/-- The collapse scanner output contains no two adjacent whitespace
characters. -/
theorem noWsRun_collapseAux : ∀ (l : List Char) (sk : Bool),
    noWsRun (collapseWsAux sk l) = true := by
  intro l
  induction l with
  | nil => intro sk; rfl
  | cons c rest ih =>
    intro sk
    by_cases hw : isWs c = true
    · cases sk with
      | true => simpa [collapseWsAux, hw] using ih true
      | false =>
        simp only [collapseWsAux, hw, if_pos, Bool.false_eq_true, ite_false, ite_true]
        exact noWsRun_cons (Or.inr (hdWs_collapseAux_true rest)) (ih true)
    · have hw' : isWs c = false := by simpa using hw
      simp only [collapseWsAux, hw', Bool.false_eq_true, ite_false]
      exact noWsRun_cons (Or.inl hw') (ih false)

/-- Every whitespace character the collapse scanner emits is a space. -/
theorem allWsSpace_collapseAux : ∀ (l : List Char) (sk : Bool),
    allWsSpace (collapseWsAux sk l) := by
  intro l
  induction l with
  | nil => intro sk x hx; simp [collapseWsAux] at hx
  | cons c rest ih =>
    intro sk x hx
    by_cases hw : isWs c = true
    · cases sk with
      | true =>
        simp only [collapseWsAux, hw, ite_true] at hx
        exact ih true x hx
      | false =>
        simp only [collapseWsAux, hw, Bool.false_eq_true, ite_true, ite_false] at hx
        rcases List.mem_cons.mp hx with h | h
        · intro _; exact h
        · exact ih true x h
    · simp only [collapseWsAux, hw, Bool.false_eq_true, ite_false] at hx
      rcases List.mem_cons.mp hx with h | h
      · intro hws; subst h; exact absurd hws (by simpa using hw)
      · exact ih false x h

/-- When the head is not whitespace, the two scanner modes agree. -/
theorem collapseAux_true_eq_false {l : List Char} (h : hdWs l = false) :
    collapseWsAux true l = collapseWsAux false l := by
  cases l with
  | nil => rfl
  | cons c rest =>
    have hc : isWs c = false := by simpa [hdWs] using h
    simp [collapseWsAux, hc]

/-- A collapsed all-space-whitespace string is a fixed point of the collapse
scanner. -/
theorem collapseAux_fixed : ∀ l : List Char, noWsRun l = true → allWsSpace l →
    collapseWsAux false l = l := by
  intro l
  induction l with
  | nil => intro _ _; rfl
  | cons c rest ih =>
    intro hrun hsp
    have hrest : collapseWsAux false rest = rest :=
      ih (noWsRun_tail hrun) (fun x hx => hsp x (List.mem_cons_of_mem _ hx))
    by_cases hw : isWs c = true
    · have hc : c = ' ' := hsp c (List.mem_cons_self c rest) hw
      have hhd : hdWs rest = false := noWsRun_hd hrun hw
      simp only [collapseWsAux, hw, Bool.false_eq_true, ite_true, ite_false]
      rw [collapseAux_true_eq_false hhd, hrest, hc]
    · simp only [collapseWsAux, hw, Bool.false_eq_true, ite_false]
      rw [hrest]

/-! ## Trimming lemmas -/

/-- Dropping leading whitespace leaves a non-whitespace head. -/
theorem hdWs_dropWhile_isWs : ∀ l : List Char, hdWs (l.dropWhile isWs) = false := by
  intro l
  induction l with
  | nil => rfl
  | cons c rest ih =>
    by_cases hw : isWs c = true
    · simpa [List.dropWhile, hw] using ih
    · simp [List.dropWhile, hw, hdWs]

/-- Trailing-trim only removes characters. -/
theorem trimEnd_sublist : ∀ l : List Char, List.Sublist (trimEnd l) l := by
  intro l
  induction l with
  | nil => simp [trimEnd]
  | cons c rest ih =>
    simp only [trimEnd]
    cases h : trimEnd rest with
    | nil =>
      by_cases hw : isWs c = true
      · simp [hw]
      · simp [hw]
    | cons d r =>
      simp only [h]
      rw [h] at ih
      exact List.Sublist.cons₂ c ih

/-- Trailing-trim preserves the head when the result is non-empty. -/
theorem trimEnd_head? {l : List Char} (h : trimEnd l ≠ []) :
    (trimEnd l).head? = l.head? := by
  cases l with
  | nil => simp [trimEnd] at h
  | cons c rest =>
    simp only [trimEnd] at h ⊢
    cases hr : trimEnd rest with
    | nil =>
      by_cases hw : isWs c = true
      · simp [hr, hw] at h
      · simp [hr, hw]
    | cons d r => simp [hr]

/-- Appending to a cons keeps the last element of the tail. -/
theorem endWs_cons {c : Char} {r : List Char} (h : r ≠ []) : endWs (c :: r) = endWs r := by
  cases r with
  | nil => exact absurd rfl h
  | cons d r' => simp [endWs, List.getLast?_cons_cons]

/-- Trailing-trim leaves no trailing whitespace. -/
theorem endWs_trimEnd : ∀ l : List Char, endWs (trimEnd l) = false := by
  intro l
  induction l with
  | nil => rfl
  | cons c rest ih =>
    simp only [trimEnd]
    cases hr : trimEnd rest with
    | nil =>
      rcases Bool.eq_false_or_eq_true (isWs c) with hw | hw
      · simp [hw, endWs]
      · simp [hw, endWs]
    | cons d r =>
      rw [endWs_cons (by simp)]
      rw [hr] at ih
      exact ih

/-- A string with no trailing whitespace is a fixed point of trailing
trim. -/
theorem trimEnd_fixed : ∀ l : List Char, endWs l = false → trimEnd l = l := by
  intro l
  induction l with
  | nil => intro _; rfl
  | cons c rest ih =>
    intro h
    cases rest with
    | nil =>
      have hc : isWs c = false := by simpa [endWs] using h
      simp [trimEnd, hc]
    | cons b r =>
      have hrest : endWs (b :: r) = false := by rwa [endWs_cons (by simp)] at h
      have heq := ih hrest
      simp only [trimEnd] at heq ⊢
      rw [heq]

/-- A string with a non-whitespace head is a fixed point of leading drop. -/
theorem dropWhile_isWs_fixed {l : List Char} (h : hdWs l = false) :
    l.dropWhile isWs = l := by
  cases l with
  | nil => rfl
  | cons c rest =>
    have hc : isWs c = false := by simpa [hdWs] using h
    simp [List.dropWhile, hc]

/-- The trimmed string has no leading whitespace. -/
theorem hdWs_trimWs (l : List Char) : hdWs (trimWs l) = false := by
  unfold trimWs
  by_cases h : trimEnd (l.dropWhile isWs) = []
  · simp [h, hdWs]
  · have hhd : (trimEnd (l.dropWhile isWs)).head? = (l.dropWhile isWs).head? :=
      trimEnd_head? h
    have hm0 : hdWs (l.dropWhile isWs) = false := hdWs_dropWhile_isWs l
    cases hte : trimEnd (l.dropWhile isWs) with
    | nil => exact absurd hte h
    | cons d r =>
      cases hmm : l.dropWhile isWs with
      | nil =>
        rw [hte, hmm] at hhd
        simp at hhd
      | cons e t =>
        rw [hte, hmm] at hhd
        have hde : d = e := by simpa using hhd
        rw [hmm] at hm0
        subst hde
        simpa [hdWs] using hm0

/-- The trimmed string has no trailing whitespace. -/
theorem endWs_trimWs (l : List Char) : endWs (trimWs l) = false :=
  endWs_trimEnd (l.dropWhile isWs)

/-- Trimming only removes characters. -/
theorem trimWs_sublist (l : List Char) : List.Sublist (trimWs l) l :=
  (trimEnd_sublist (l.dropWhile isWs)).trans (l.dropWhile_sublist isWs)

/-- A string trimmed on both ends is a fixed point of trimming. -/
theorem trimWs_fixed {l : List Char} (h1 : hdWs l = false) (h2 : endWs l = false) :
    trimWs l = l := by
  unfold trimWs
  rw [dropWhile_isWs_fixed h1]
  exact trimEnd_fixed l h2

/-! ## Preservation lemmas for the excerpt pipeline -/

/-- Dropping leading whitespace keeps runs collapsed. -/
theorem noWsRun_dropWhile_isWs : ∀ l : List Char, noWsRun l = true →
    noWsRun (l.dropWhile isWs) = true := by
  intro l
  induction l with
  | nil => intro _; rfl
  | cons c rest ih =>
    intro h
    by_cases hw : isWs c = true
    · simp only [List.dropWhile, hw]
      exact ih (noWsRun_tail h)
    · simpa [List.dropWhile, hw] using h

/-- Trailing trim keeps runs collapsed. -/
theorem noWsRun_trimEnd : ∀ l : List Char, noWsRun l = true →
    noWsRun (trimEnd l) = true := by
  intro l
  induction l with
  | nil => intro _; rfl
  | cons c rest ih =>
    intro hrun
    cases h : trimEnd rest with
    | nil =>
      rcases Bool.eq_false_or_eq_true (isWs c) with hw | hw
      · simp [trimEnd, h, hw, noWsRun]
      · simp [trimEnd, h, hw, noWsRun]
    | cons d r =>
      have hne : trimEnd rest ≠ [] := by simp [h]
      have hh := trimEnd_head? hne
      rw [h] at hh
      have hrest' : noWsRun (d :: r) = true := h ▸ ih (noWsRun_tail hrun)
      simp only [trimEnd, h]
      refine noWsRun_cons ?_ hrest'
      rcases Bool.eq_false_or_eq_true (isWs c) with hw | hw
      · right
        cases rest with
        | nil => simp [trimEnd] at h
        | cons e t =>
          have hde : d = e := by simpa using hh
          have hhd := noWsRun_hd hrun hw
          subst hde
          simpa [hdWs] using hhd
      · exact Or.inl hw

/-- Trimming keeps runs collapsed. -/
theorem noWsRun_trimWs {l : List Char} (h : noWsRun l = true) :
    noWsRun (trimWs l) = true :=
  noWsRun_trimEnd _ (noWsRun_dropWhile_isWs l h)

/-- Taking a prefix preserves a non-whitespace head condition. -/
theorem hdWs_take {l : List Char} (n : Nat) (h : hdWs l = false) :
    hdWs (l.take n) = false := by
  cases l with
  | nil => simp [hdWs]
  | cons c rest =>
    cases n with
    | zero => simp [hdWs]
    | succ m => simpa [hdWs] using h

/-- Taking a prefix keeps runs collapsed. -/
theorem noWsRun_take : ∀ (l : List Char) (n : Nat), noWsRun l = true →
    noWsRun (l.take n) = true := by
  intro l
  induction l with
  | nil => intro n _; simp [noWsRun]
  | cons c rest ih =>
    intro n h
    cases n with
    | zero => rfl
    | succ m =>
      simp only [List.take]
      refine noWsRun_cons ?_ (ih m (noWsRun_tail h))
      rcases Bool.eq_false_or_eq_true (isWs c) with hw | hw
      · exact Or.inr (hdWs_take m (noWsRun_hd h hw))
      · exact Or.inl hw

/-- A whitespace-free head survives an append with a safe right part. -/
theorem hdWs_append {X Z : List Char} (hX : hdWs X = false) (hZ : hdWs Z = false) :
    hdWs (X ++ Z) = false := by
  cases X with
  | nil => simpa using hZ
  | cons c r => simpa [hdWs] using hX

/-- The last character of an append with non-empty right part comes from the
right part. -/
theorem endWs_append_right : ∀ (X Z : List Char), Z ≠ [] → endWs (X ++ Z) = endWs Z := by
  intro X Z hZ
  induction X with
  | nil => rfl
  | cons c r ih =>
    have hne : r ++ Z ≠ [] := fun h => hZ (List.append_eq_nil.mp h).2
    rw [List.cons_append, endWs_cons hne, ih]

/-- Concatenation keeps runs collapsed when the right part has a
non-whitespace head. -/
theorem noWsRun_append : ∀ X : List Char, {Z : List Char} → noWsRun X = true →
    hdWs Z = false → noWsRun Z = true → noWsRun (X ++ Z) = true := by
  intro X
  induction X with
  | nil => intro Z _ _ hZ; simpa using hZ
  | cons c r ih =>
    intro Z hX hhd hZ
    rw [List.cons_append]
    refine noWsRun_cons ?_ (ih (noWsRun_tail hX) hhd hZ)
    rcases Bool.eq_false_or_eq_true (isWs c) with hw | hw
    · right
      have := noWsRun_hd hX hw
      cases r with
      | nil => simpa using hhd
      | cons d t => simpa [hdWs] using this
    · exact Or.inl hw

/-- Space-only whitespace is inherited by sublists. -/
theorem allWsSpace_of_sublist {l' l : List Char} (hsub : List.Sublist l' l)
    (h : allWsSpace l) : allWsSpace l' :=
  fun c hc hw => h c (hsub.subset hc) hw

/-- Space-only whitespace is preserved by concatenation. -/
theorem allWsSpace_append {X Z : List Char} (hX : allWsSpace X) (hZ : allWsSpace Z) :
    allWsSpace (X ++ Z) := by
  intro c hc hw
  rcases List.mem_append.mp hc with h | h
  · exact hX c h hw
  · exact hZ c h hw

/-! ## Properties of the cleaned text -/

/-- The cleaned text contains no tag-shaped substring. -/
theorem tagFree_cleanedText (content : List Char) : tagFree (cleanedText content) := by
  have h1 : tagFree ((stripTags content).map wsToSpace) :=
    tagFree_map_wsToSpace (tagFree_stripTags content)
  have h2 : tagFree (collapseWs (stripTags content)) :=
    tagFree_of_sublist (collapseAux_sublist (stripTags content) false) h1
  exact tagFree_of_sublist (trimWs_sublist _) h2

/-- The cleaned text has no two adjacent whitespace characters. -/
theorem noWsRun_cleanedText (content : List Char) : noWsRun (cleanedText content) = true :=
  noWsRun_trimWs (noWsRun_collapseAux (stripTags content) false)

/-- Every whitespace character of the cleaned text is a space. -/
theorem allWsSpace_cleanedText (content : List Char) : allWsSpace (cleanedText content) :=
  allWsSpace_of_sublist (trimWs_sublist _) (allWsSpace_collapseAux (stripTags content) false)

/-- The cleaned text has no leading whitespace. -/
theorem hdWs_cleanedText (content : List Char) : hdWs (cleanedText content) = false :=
  hdWs_trimWs _

/-- The cleaned text has no trailing whitespace. -/
theorem endWs_cleanedText (content : List Char) : endWs (cleanedText content) = false :=
  endWs_trimWs _

/-! ## Excerpt theorems -/

/-- C7: for every content string and every maxLength, `extractExcerpt`
produces a string with no tag-shaped substring, whitespace collapsed to
single spaces, both ends trimmed, of length at most `maxLength + 3`; it is
the cleaned text verbatim exactly when that text fits in `maxLength`, and
otherwise the truncated-and-trimmed prefix with the ellipsis marker
appended. -/
theorem extractExcerpt_spec (content : List Char) (maxLength : Nat) :
    (extractExcerpt content maxLength).length ≤ maxLength + 3 ∧
    tagFree (extractExcerpt content maxLength) ∧
    noWsRun (extractExcerpt content maxLength) = true ∧
    allWsSpace (extractExcerpt content maxLength) ∧
    hdWs (extractExcerpt content maxLength) = false ∧
    endWs (extractExcerpt content maxLength) = false ∧
    ((cleanedText content).length ≤ maxLength →
      extractExcerpt content maxLength = cleanedText content) ∧
    (maxLength < (cleanedText content).length →
      extractExcerpt content maxLength
        = trimWs ((cleanedText content).take maxLength) ++ ellipsis) := by
  by_cases h : (cleanedText content).length ≤ maxLength
  · have he : extractExcerpt content maxLength = cleanedText content := by
      unfold extractExcerpt
      rw [if_pos h]
    rw [he]
    exact ⟨h.trans (Nat.le_add_right _ 3), tagFree_cleanedText content,
      noWsRun_cleanedText content, allWsSpace_cleanedText content,
      hdWs_cleanedText content, endWs_cleanedText content,
      fun _ => rfl, fun hc => absurd h (by omega)⟩
  · have hgt : maxLength < (cleanedText content).length := Nat.lt_of_not_le h
    have he : extractExcerpt content maxLength
        = trimWs ((cleanedText content).take maxLength) ++ ellipsis := by
      unfold extractExcerpt
      rw [if_neg h]
    rw [he]
    have hXsub : List.Sublist (trimWs ((cleanedText content).take maxLength))
        (cleanedText content) :=
      (trimWs_sublist _).trans (List.take_sublist _ _)
    have hXlen : (trimWs ((cleanedText content).take maxLength)).length ≤ maxLength := by
      refine le_trans (trimWs_sublist _).length_le ?_
      rw [List.length_take]
      exact min_le_left _ _
    have htf : tagFree (trimWs ((cleanedText content).take maxLength) ++ ellipsis) := by
      obtain ⟨A, B, hAB, hA, hB⟩ :=
        TF_of_tagFree _ (tagFree_of_sublist hXsub (tagFree_cleanedText content))
      rw [hAB, List.append_assoc]
      refine tagFree_split hA ?_
      intro hm
      rcases List.mem_append.mp hm with hmem | hmem
      · exact hB hmem
      · simp [ellipsis] at hmem
    refine ⟨?_, htf, ?_, ?_, ?_, ?_, fun hc => absurd hc (by omega), fun _ => rfl⟩
    · rw [List.length_append]
      have h3 : ellipsis.length = 3 := rfl
      omega
    · exact noWsRun_append _
        (noWsRun_trimWs (noWsRun_take _ _ (noWsRun_cleanedText content)))
        (by decide) (by decide)
    · refine allWsSpace_append
        (allWsSpace_of_sublist hXsub (allWsSpace_cleanedText content)) ?_
      intro c hc hw
      simp [ellipsis] at hc
      subst hc
      exact absurd hw (by decide)
    · exact hdWs_append (hdWs_trimWs _) (by decide)
    · rw [endWs_append_right _ ellipsis (by decide)]
      decide

/-- C7 witness: the spec example — HTML content excerpted at 50 yields at
most 53 characters. -/
theorem extractExcerpt_spec_witness :
    (extractExcerpt
      ("<p>This is a long article with <strong>HTML</strong> tags...</p>".toList)
      50).length ≤ 53 :=
  (extractExcerpt_spec
    ("<p>This is a long article with <strong>HTML</strong> tags...</p>".toList) 50).1

/-- A tag-free, collapsed, trimmed string that fits in the limit is a fixed
point of the excerpt pipeline. -/
theorem extractExcerpt_fixed {s : List Char} {m : Nat} (h1 : tagFree s)
    (h2 : noWsRun s = true) (h3 : allWsSpace s) (h4 : hdWs s = false)
    (h5 : endWs s = false) (h6 : s.length ≤ m) : extractExcerpt s m = s := by
  have hstrip : stripTags s = s := stripTags_of_tagFree h1
  have hcoll : collapseWs s = s := collapseAux_fixed s h2 h3
  have hclean : cleanedText s = s := by
    unfold cleanedText
    rw [hstrip]
    rw [show collapseWs s = s from hcoll]
    exact trimWs_fixed h4 h5
  unfold extractExcerpt
  rw [hclean, if_pos h6]

/-- C9 counterexample: the string `" a"` has no tag-shaped substring and
already-collapsed whitespace, and fits in `maxLength = 5`, yet
`extractExcerpt` returns `"a"`, not the same string: the claim omits that
the input must also be trimmed. -/
theorem extractExcerpt_idem_cex :
    tagFree ([' ', 'a'] : List Char) ∧
    noWsRun ([' ', 'a'] : List Char) = true ∧
    allWsSpace ([' ', 'a'] : List Char) ∧
    ([' ', 'a'] : List Char).length ≤ 5 ∧
    extractExcerpt [' ', 'a'] 5 ≠ [' ', 'a'] ∧
    extractExcerpt [' ', 'a'] 5 = ['a'] :=
  ⟨by decide, by decide, by decide, by decide, by decide, by decide⟩

/-- C9 amended: `extractExcerpt` fixes every string that is tag-free, has
collapsed whitespace, is trimmed at both ends, and fits in `maxLength`; in
particular the output of any non-truncating application is returned
unchanged by a second application. -/
theorem extractExcerpt_idem_amended (s : List Char) (m : Nat) (h1 : tagFree s)
    (h2 : noWsRun s = true) (h3 : allWsSpace s) (h4 : hdWs s = false)
    (h5 : endWs s = false) (h6 : s.length ≤ m) :
    extractExcerpt s m = s ∧
    (∀ content : List Char, (cleanedText content).length ≤ m →
      extractExcerpt (extractExcerpt content m) m = extractExcerpt content m) := by
  refine ⟨extractExcerpt_fixed h1 h2 h3 h4 h5 h6, ?_⟩
  intro content hc
  have he : extractExcerpt content m = cleanedText content := by
    unfold extractExcerpt
    rw [if_pos hc]
  rw [he]
  exact extractExcerpt_fixed (tagFree_cleanedText content) (noWsRun_cleanedText content)
    (allWsSpace_cleanedText content) (hdWs_cleanedText content)
    (endWs_cleanedText content) hc

/-- C9 amended witness: the trimmed plain string `"hi"` at limit 10. -/
theorem extractExcerpt_idem_amended_witness :
    extractExcerpt ("hi".toList) 10 = "hi".toList ∧
    (∀ content : List Char, (cleanedText content).length ≤ 10 →
      extractExcerpt (extractExcerpt content 10) 10 = extractExcerpt content 10) :=
  extractExcerpt_idem_amended ("hi".toList) 10 (by decide) (by decide) (by decide)
    (by decide) (by decide) (by decide)

/-! ## Feed adapter theorems -/

/-- C6: `fetchMediumArticles` (embedded with a natural-number `limit`, the
count of the source's `slice(0, limit)`) returns, on a successful fetch and
parse, the first `limit` feed items in feed order mapped to the normalized
shape — substituting `'DEI Team'` when neither creator field is present and
the empty sequence when categories are absent — and on any fetch or parse
failure returns the empty sequence; it is a total function, so no failure
propagates. -/
theorem fetchMediumArticles_spec (res : FetchResult) (limit : Nat) :
    (res = FetchResult.throws → fetchMediumArticles res limit = []) ∧
    (∀ items, res = FetchResult.ok items →
      fetchMediumArticles res limit = (items.take limit).map mapFeedItem ∧
      (fetchMediumArticles res limit).length ≤ limit) ∧
    (∀ item : FeedItem, item.dcCreator = none → item.creator = none →
      (mapFeedItem item).dcCreator = "DEI Team") ∧
    (∀ item : FeedItem, item.categories = none → (mapFeedItem item).categories = []) := by
  refine ⟨fun h => by rw [h]; rfl, ?_, ?_, ?_⟩
  · intro items h
    subst h
    refine ⟨rfl, ?_⟩
    show ((items.take limit).map mapFeedItem).length ≤ limit
    rw [List.length_map, List.length_take]
    exact min_le_left _ _
  · intro item h1 h2
    show jsOrStr item.dcCreator (jsOrStr item.creator "DEI Team") = "DEI Team"
    rw [h1, h2]
    rfl
  · intro item h
    show item.categories.getD [] = []
    rw [h]
    rfl

/-- C6 witness: a throwing fetch at the default limit yields the empty
sequence. -/
theorem fetchMediumArticles_spec_witness :
    fetchMediumArticles FetchResult.throws 10 = [] :=
  (fetchMediumArticles_spec FetchResult.throws 10).1 rfl

/-! ## Reading-time lemmas -/

/-- The splitter always yields at least one segment, even on empty input. -/
theorem splitWsGo_length_pos : ∀ (l : List Char) (sk : Bool) (acc : List Char),
    1 ≤ (splitWsGo sk acc l).length := by
  intro l
  induction l with
  | nil => intro sk acc; simp [splitWsGo]
  | cons c rest ih =>
    intro sk acc
    by_cases hw : isWs c = true
    · cases sk with
      | true => simpa [splitWsGo, hw] using ih true acc
      | false =>
        simp only [splitWsGo, hw, Bool.false_eq_true, ite_true, ite_false, List.length_cons]
        omega
    · simpa [splitWsGo, hw] using ih false (c :: acc)

/-- Consuming a non-empty all-non-whitespace word moves it into the
accumulator. -/
theorem splitWsGo_word : ∀ (w : List Char), (∀ c ∈ w, isWs c = false) → w ≠ [] →
    ∀ (sk : Bool) (acc tail : List Char),
      splitWsGo sk acc (w ++ tail) = splitWsGo false (w.reverse ++ acc) tail := by
  intro w
  induction w with
  | nil => intro _ hne; exact absurd rfl hne
  | cons c w' ih =>
    intro hw _ sk acc tail
    have hc : isWs c = false := hw c (List.mem_cons_self c w')
    have hstep : splitWsGo sk acc ((c :: w') ++ tail)
        = splitWsGo false (c :: acc) (w' ++ tail) := by
      simp [splitWsGo, hc]
    rw [hstep]
    cases w' with
    | nil => simp
    | cons d w'' =>
      rw [ih (fun x hx => hw x (List.mem_cons_of_mem _ hx)) (by simp) false (c :: acc) tail]
      simp [List.append_assoc]

/-- In a separator run the splitter skips further whitespace. -/
theorem splitWsGo_skip : ∀ (sep : List Char), (∀ c ∈ sep, isWs c = true) →
    ∀ (acc tail : List Char), splitWsGo true acc (sep ++ tail) = splitWsGo true acc tail := by
  intro sep
  induction sep with
  | nil => intro _ acc tail; rfl
  | cons c s' ih =>
    intro hws acc tail
    have hc : isWs c = true := hws c (List.mem_cons_self c s')
    have hstep : splitWsGo true acc ((c :: s') ++ tail)
        = splitWsGo true acc (s' ++ tail) := by
      simp [splitWsGo, hc]
    rw [hstep, ih (fun x hx => hws x (List.mem_cons_of_mem _ hx))]

/-- A non-empty whitespace separator closes the current segment. -/
theorem splitWsGo_sep (sep : List Char) (hne : sep ≠ []) (hws : ∀ c ∈ sep, isWs c = true)
    (acc tail : List Char) :
    splitWsGo false acc (sep ++ tail) = acc.reverse :: splitWsGo true [] tail := by
  cases sep with
  | nil => exact absurd rfl hne
  | cons c s' =>
    have hc : isWs c = true := hws c (List.mem_cons_self c s')
    have hstep : splitWsGo false acc ((c :: s') ++ tail)
        = acc.reverse :: splitWsGo true [] (s' ++ tail) := by
      simp [splitWsGo, hc]
    rw [hstep, splitWsGo_skip s' (fun x hx => hws x (List.mem_cons_of_mem _ hx))]

/-- Counting segments of joined words: a first word and `rest.length`
(separator, word) blocks split into exactly `1 + rest.length` segments. -/
theorem splitWsGo_joined_length :
    ∀ (rest : List (List Char × List Char)) (w0 : List Char), w0 ≠ [] →
    (∀ c ∈ w0, isWs c = false) →
    (∀ p ∈ rest, (p.1 ≠ [] ∧ ∀ c ∈ p.1, isWs c = true) ∧
                 (p.2 ≠ [] ∧ ∀ c ∈ p.2, isWs c = false)) →
    ∀ (sk : Bool) (acc : List Char),
      (splitWsGo sk acc (joined w0 rest)).length = 1 + rest.length := by
  intro rest
  induction rest with
  | nil =>
    intro w0 hne hw _ sk acc
    have h := splitWsGo_word w0 hw hne sk acc []
    rw [List.append_nil] at h
    show (splitWsGo sk acc w0).length = 1 + 0
    rw [h]
    simp [splitWsGo]
  | cons p rest' ih =>
    intro w0 hne hw hrest sk acc
    obtain ⟨s, w⟩ := p
    obtain ⟨⟨hs_ne, hs_ws⟩, hw_ne, hw_ws⟩ := hrest (s, w) (List.mem_cons_self _ _)
    have hj : joined w0 ((s, w) :: rest') = w0 ++ (s ++ joined w rest') := by
      simp [joined, List.append_assoc]
    rw [hj, splitWsGo_word w0 hw hne sk acc (s ++ joined w rest'),
      splitWsGo_sep s hs_ne hs_ws _ _, List.length_cons,
      ih w hw_ne hw_ws (fun q hq => hrest q (List.mem_cons_of_mem _ hq)) true []]
    simp only [List.length_cons]
    omega

/-- Characters of a join come from the first word or from one of the
blocks. -/
theorem mem_joined : ∀ (rest : List (List Char × List Char)) (w0 : List Char) (c : Char),
    c ∈ joined w0 rest → c ∈ w0 ∨ ∃ p ∈ rest, c ∈ p.1 ∨ c ∈ p.2 := by
  intro rest
  induction rest with
  | nil => intro w0 c h; exact Or.inl h
  | cons p rest' ih =>
    intro w0 c h
    obtain ⟨s, w⟩ := p
    have h' : c ∈ w0 ++ (s ++ joined w rest') := by
      simpa [joined, List.append_assoc] using h
    rcases List.mem_append.mp h' with h1 | h2
    · exact Or.inl h1
    rcases List.mem_append.mp h2 with h3 | h4
    · exact Or.inr ⟨(s, w), List.mem_cons_self _ _, Or.inl h3⟩
    rcases ih w c h4 with h5 | ⟨q, hq, h6⟩
    · exact Or.inr ⟨(s, w), List.mem_cons_self _ _, Or.inr h5⟩
    · exact Or.inr ⟨q, List.mem_cons_of_mem _ hq, h6⟩

/-- A join headed by a non-empty non-whitespace word has a non-whitespace
head. -/
theorem hdWs_joined (w0 : List Char) (rest : List (List Char × List Char))
    (hne : w0 ≠ []) (hw : ∀ c ∈ w0, isWs c = false) :
    hdWs (joined w0 rest) = false := by
  cases rest with
  | nil =>
    cases w0 with
    | nil => exact absurd rfl hne
    | cons c t => simpa [hdWs] using hw c (List.mem_cons_self c t)
  | cons p rest' =>
    obtain ⟨s, w⟩ := p
    cases w0 with
    | nil => exact absurd rfl hne
    | cons c t =>
      show hdWs ((c :: t) ++ s ++ joined w rest') = false
      simpa [hdWs] using hw c (List.mem_cons_self c t)

/-- A non-empty all-non-whitespace string ends without whitespace. -/
theorem endWs_of_nonws : ∀ l : List Char, (∀ c ∈ l, isWs c = false) → endWs l = false := by
  intro l
  induction l with
  | nil => intro _; rfl
  | cons c rest ih =>
    intro hw
    cases rest with
    | nil => simpa [endWs] using hw c (List.mem_cons_self c [])
    | cons b r =>
      rw [endWs_cons (by simp)]
      exact ih (fun x hx => hw x (List.mem_cons_of_mem _ hx))

/-- A join of non-empty words is non-empty. -/
theorem joined_ne_nil (w0 : List Char) (rest : List (List Char × List Char))
    (hne : w0 ≠ []) : joined w0 rest ≠ [] := by
  cases rest with
  | nil => exact hne
  | cons p rest' =>
    obtain ⟨s, w⟩ := p
    intro h
    exact hne (List.append_eq_nil.mp (List.append_eq_nil.mp h).1).1

/-- A join ending in a non-whitespace word has no trailing whitespace. -/
theorem endWs_joined : ∀ (rest : List (List Char × List Char)) (w0 : List Char),
    w0 ≠ [] → (∀ c ∈ w0, isWs c = false) →
    (∀ p ∈ rest, p.2 ≠ [] ∧ ∀ c ∈ p.2, isWs c = false) →
    endWs (joined w0 rest) = false := by
  intro rest
  induction rest with
  | nil => intro w0 _ hw _; exact endWs_of_nonws w0 hw
  | cons p rest' ih =>
    intro w0 hne hw hrest
    obtain ⟨s, w⟩ := p
    obtain ⟨hw_ne, hw_ws⟩ := hrest (s, w) (List.mem_cons_self _ _)
    have hjne : joined w rest' ≠ [] := joined_ne_nil w rest' hw_ne
    show endWs (w0 ++ s ++ joined w rest') = false
    rw [endWs_append_right _ _ hjne]
    exact ih w hw_ne hw_ws (fun q hq => hrest q (List.mem_cons_of_mem _ hq))

/-- Ceiling of a natural division by 200 computed as natural arithmetic. -/
theorem natCeil_div_200 (w : Nat) : Nat.ceil ((w : ℚ) / 200) = (w + 199) / 200 := by
  rcases Nat.eq_zero_or_pos w with h | h
  · subst h
    norm_num
  · have hq : (w + 199) / 200 ≠ 0 := by
      have h200 : 200 ≤ w + 199 := by omega
      have := (Nat.one_le_div_iff (by norm_num : 0 < 200)).mpr h200
      omega
    rw [Nat.ceil_eq_iff hq]
    constructor
    · rw [lt_div_iff₀ (by norm_num : (0:ℚ) < 200)]
      have hmul : ((w + 199) / 200) * 200 ≤ w + 199 := Nat.div_mul_le_self (w + 199) 200
      have hq1 : 1 ≤ (w + 199) / 200 := Nat.pos_of_ne_zero hq
      have h2 : ((w + 199) / 200 - 1) * 200 < w := by
        have hexp : ((w + 199) / 200 - 1) * 200 = ((w + 199) / 200) * 200 - 200 := by
          rw [Nat.sub_mul, one_mul]
        omega
      exact_mod_cast h2
    · rw [div_le_iff₀ (by norm_num : (0:ℚ) < 200)]
      have hdm := Nat.div_add_mod (w + 199) 200
      have hlt : (w + 199) % 200 < 200 := Nat.mod_lt _ (by norm_num)
      have h3 : w ≤ ((w + 199) / 200) * 200 := by omega
      exact_mod_cast h3

/-- C10: `calculateReadingTime` returns at least 1 on every content string,
including the empty and whitespace-only strings, because splitting the
trimmed string always yields at least one (possibly empty) token. -/
theorem calculateReadingTime_min_one (content : List Char) :
    1 ≤ calculateReadingTime content := by
  unfold calculateReadingTime
  rw [Nat.one_le_ceil_iff]
  apply div_pos
  · have h := splitWsGo_length_pos (trimWs (stripTags content)) false []
    exact_mod_cast Nat.lt_of_lt_of_le Nat.zero_lt_one h
  · norm_num [wordsPerMinute]

/-- C8: on plain-text content of `N = 1 + rest.length ≥ 1` whitespace-
separated words (non-empty words of non-whitespace, markup-free characters,
joined by non-empty whitespace separators), `calculateReadingTime` returns
`⌈N / 200⌉`, equal to `(N + 199) / 200`, which is at least 1. -/
theorem calculateReadingTime_words_spec (w0 : List Char)
    (rest : List (List Char × List Char))
    (hw0 : w0 ≠ []) (hw0c : ∀ c ∈ w0, isWs c = false ∧ c ≠ '>')
    (hrest : ∀ p ∈ rest, (p.1 ≠ [] ∧ ∀ c ∈ p.1, isWs c = true) ∧
                         (p.2 ≠ [] ∧ ∀ c ∈ p.2, isWs c = false ∧ c ≠ '>')) :
    calculateReadingTime (joined w0 rest)
        = Nat.ceil (((1 + rest.length : Nat) : ℚ) / 200) ∧
    calculateReadingTime (joined w0 rest) = (1 + rest.length + 199) / 200 ∧
    1 ≤ calculateReadingTime (joined w0 rest) := by
  have hgt : '>' ∉ joined w0 rest := by
    intro hm
    rcases mem_joined rest w0 '>' hm with h | ⟨p, hp, h⟩
    · exact (hw0c '>' h).2 rfl
    · rcases h with h | h
      · exact absurd (((hrest p hp).1.2) '>' h) (by decide)
      · exact ((hrest p hp).2.2 '>' h).2 rfl
  have hstrip : stripTags (joined w0 rest) = joined w0 rest :=
    stripAux_none_of_noGt _ hgt
  have htrim : trimWs (joined w0 rest) = joined w0 rest :=
    trimWs_fixed
      (hdWs_joined w0 rest hw0 (fun c hc => (hw0c c hc).1))
      (endWs_joined rest w0 hw0 (fun c hc => (hw0c c hc).1)
        (fun p hp => ⟨(hrest p hp).2.1, fun c hc => ((hrest p hp).2.2 c hc).1⟩))
  have hcount : (splitWs (joined w0 rest)).length = 1 + rest.length :=
    splitWsGo_joined_length rest w0 hw0 (fun c hc => (hw0c c hc).1)
      (fun p hp => ⟨(hrest p hp).1, (hrest p hp).2.1,
        fun c hc => ((hrest p hp).2.2 c hc).1⟩) false []
  have hmain : calculateReadingTime (joined w0 rest)
      = Nat.ceil (((1 + rest.length : Nat) : ℚ) / 200) := by
    unfold calculateReadingTime
    rw [hstrip, htrim, hcount]
    norm_num [wordsPerMinute]
  have hdiv : calculateReadingTime (joined w0 rest) = (1 + rest.length + 199) / 200 := by
    rw [hmain, natCeil_div_200]
  refine ⟨hmain, hdiv, ?_⟩
  rw [hdiv]
  rw [Nat.one_le_div_iff (by norm_num : 0 < 200)]
  omega

/-- C8 witness: two words read in one minute. -/
theorem calculateReadingTime_words_spec_witness :
    calculateReadingTime (joined ("data".toList) [([' '], "engineering".toList)]) = 1 := by
  have h := (calculateReadingTime_words_spec ("data".toList)
    [([' '], "engineering".toList)] (by decide) (by decide) (by decide)).2.1
  rw [h]
  decide

end Dei
